import Mathlib

/-!
Verification of the boot-up time audit (lighthouse-core/audits/bootup-time.js).

The audit consumes the per-URL / per-task tree produced by the external
grouping engine (DevtoolsTimelineModel, out of scope per the spec), flattens
it into a URL timing map, regroups task durations by coarse category, and
produces a score, a grand total and a table.

Embedding conventions:
  - JS objects and Maps used as string-keyed dictionaries are association
    lists with `setKey` / `getKey`, which preserve insertion order and update
    an existing key in place, as JS does.
  - Millisecond values are rationals; `toFixed(1)` followed by `Number` is
    `round1` (round to one decimal place).
  - The external classifier (WebInspector eventStyle) and the external
    formatter (Util.formatMilliseconds) are opaque function parameters.
  - A possibly-missing JS field is an `Option`; the JS idiom `x || 0` on a
    numeric field is `Option.getD 0`.
  - Indexing a dictionary with the JS value `undefined` coerces the key to
    the string "undefined"; `optKey` performs this coercion.
-/

set_option linter.unusedVariables false

/-- Event payloads are opaque; the classifier turns one into a title string. -/
abbrev Event := String

/-- Association-list lookup, the embedding of JS dictionary read `m[k]`. -/
def getKey {α : Type} : List (String × α) → String → Option α
  | [], _ => none
  | (k, v) :: rest, q => if k = q then some v else getKey rest q

/-- Association-list update, the embedding of JS dictionary write `m[k] = v`:
updates an existing key in place, otherwise appends the new key at the end. -/
def setKey {α : Type} : List (String × α) → String → α → List (String × α)
  | [], q, v => [(q, v)]
  | (k, w) :: rest, q, v =>
    if k = q then (q, v) :: rest else (k, w) :: setKey rest q v

/-- JS property-key coercion: the value `undefined` used as a dictionary key
denotes the property named "undefined". -/
def optKey : Option String → String
  | none => "undefined"
  | some s => s

/-- Rounding to one decimal place: `Number(x.toFixed(1))`. -/
def round1 (x : ℚ) : ℚ := (round (10 * x) : ℤ) / 10

/-- A node of the inner (per-task) level of the grouping tree: an event
payload and a self time, which may be absent (`selfTime || 0` in the code). -/
structure TaskNode where
  event : Event
  selfTime : Option ℚ
deriving DecidableEq

/-- A node of the outer (per-URL) level of the grouping tree. -/
structure UrlNode where
  children : List TaskNode
deriving DecidableEq

/-- The grouping tree delivered by the external engine: URL-keyed children. -/
abbrev GroupingTree := List (String × UrlNode)

/-- A duration map of one URL: task display label to summed milliseconds. -/
abbrev TaskDurations := List (String × ℚ)

/-- The result of the extractor: URL to its duration map. -/
abbrev UrlTimingMap := List (String × TaskDurations)

/-- The `group` constant of bootup-time.js: the coarse category labels. -/
structure GroupLabels where
  loading : String
  parseHTML : String
  styleLayout : String
  compositing : String
  painting : String
  gpu : String
  scripting : String
  scriptParseCompile : String
  scriptGC : String
  other : String
  images : String

/-- The `group` object literal of bootup-time.js. -/
def group : GroupLabels :=
  { loading := "Network request loading"
    parseHTML := "Parsing DOM"
    styleLayout := "Style & Layout"
    compositing := "Compositing"
    painting := "Paint"
    gpu := "GPU"
    scripting := "Script Evaluation"
    scriptParseCompile := "Script Parsing & Compile"
    scriptGC := "Garbage collection"
    other := "Other"
    images := "Images" }

/-- The `taskToGroup` object literal of bootup-time.js: fine-grained task
title to coarse category label, in source order. -/
def taskToGroup : List (String × String) :=
  [ ("Animation", group.painting)
  , ("Async Task", group.other)
  , ("Frame Start", group.painting)
  , ("Frame Start (main thread)", group.painting)
  , ("Cancel Animation Frame", group.scripting)
  , ("Cancel Idle Callback", group.scripting)
  , ("Compile Script", group.scriptParseCompile)
  , ("Composite Layers", group.compositing)
  , ("Console Time", group.scripting)
  , ("Image Decode", group.images)
  , ("Draw Frame", group.painting)
  , ("Embedder Callback", group.scripting)
  , ("Evaluate Script", group.scripting)
  , ("Event", group.scripting)
  , ("Animation Frame Fired", group.scripting)
  , ("Fire Idle Callback", group.scripting)
  , ("Function Call", group.scripting)
  , ("DOM GC", group.scriptGC)
  , ("GC Event", group.scriptGC)
  , ("GPU", group.gpu)
  , ("Hit Test", group.compositing)
  , ("Invalidate Layout", group.styleLayout)
  , ("JS Frame", group.scripting)
  , ("Input Latency", group.scripting)
  , ("Layout", group.styleLayout)
  , ("Major GC", group.scriptGC)
  , ("DOMContentLoaded event", group.scripting)
  , ("First paint", group.painting)
  , ("FMP", group.painting)
  , ("FMP candidate", group.painting)
  , ("Load event", group.scripting)
  , ("Minor GC", group.scriptGC)
  , ("Paint", group.painting)
  , ("Paint Image", group.images)
  , ("Paint Setup", group.painting)
  , ("Parse Stylesheet", group.parseHTML)
  , ("Parse HTML", group.parseHTML)
  , ("Parse Script", group.scriptParseCompile)
  , ("Other", group.other)
  , ("Rasterize Paint", group.painting)
  , ("Recalculate Style", group.styleLayout)
  , ("Request Animation Frame", group.scripting)
  , ("Request Idle Callback", group.scripting)
  , ("Request Main Thread Frame", group.painting)
  , ("Image Resize", group.images)
  , ("Finish Loading", group.loading)
  , ("Receive Data", group.loading)
  , ("Receive Response", group.loading)
  , ("Send Request", group.loading)
  , ("Run Microtasks", group.scripting)
  , ("Schedule Style Recalculation", group.styleLayout)
  , ("Scroll", group.compositing)
  , ("Task", group.other)
  , ("Timer Fired", group.scripting)
  , ("Install Timer", group.scripting)
  , ("Remove Timer", group.scripting)
  , ("Timestamp", group.scripting)
  , ("Update Layer", group.compositing)
  , ("Update Layer Tree", group.compositing)
  , ("User Timing", group.scripting)
  , ("Create WebSocket", group.scripting)
  , ("Destroy WebSocket", group.scripting)
  , ("Receive WebSocket Handshake", group.scripting)
  , ("Send WebSocket Handshake", group.scripting)
  , ("XHR Load", group.scripting)
  , ("XHR Ready State Change", group.scripting)
  ]

/-- One step of the inner forEach of getExecutionTimingsByURL:
`tasks[title] = tasks[title] || 0; tasks[title] += Number((selfTime || 0).toFixed(1))`,
with `title = eventStyle(child.event).title` abstracted as `style child.event`. -/
def taskStepChild (style : Event → String) (tasks : TaskDurations)
    (child : TaskNode) : TaskDurations :=
  let title := style child.event
  setKey tasks title ((getKey tasks title).getD 0 + round1 (child.selfTime.getD 0))

/-- The inner forEach of getExecutionTimingsByURL over one URL node:
builds the `tasks` object from the empty object. -/
def extractTasks (style : Event → String) (children : List TaskNode) :
    TaskDurations :=
  children.foldl (taskStepChild style) []

/-- BootupTime.getExecutionTimingsByURL (bootup-time.js lines 115 to 137),
with the external grouping engine abstracted away: its produced tree is the
input. URL keys that are falsy (empty string) or "about:blank" are skipped;
each retained URL is mapped to its task duration object. -/
def getExecutionTimingsByURL (style : Event → String) (tree : GroupingTree) :
    UrlTimingMap :=
  tree.foldl
    (fun result e =>
      if e.1 = "" ∨ e.1 = "about:blank" then result
      else setKey result e.1 (extractTasks style e.2.children))
    []

/-- A column descriptor. JS stores the raw key value, which may be the value
`undefined` (modelled `none`); coercion to a property name happens only at
indexing time via `optKey`. -/
structure Heading where
  key : Option String
  itemType : String
  text : Option String
deriving DecidableEq

/-- The fixed first heading with key url, itemType url and text URL. -/
def urlHeading : Heading :=
  { key := some "url", itemType := "url", text := some "URL" }

/-- Accumulator of the inner Object.keys(durations).forEach in BootupTime.audit:
the running grand total, the per-URL `groups` dictionary, and the shared
`headings` array. -/
structure UrlAcc where
  total : ℚ
  groups : List (String × ℚ)
  headings : List Heading

/-- One step of the inner forEach of BootupTime.audit (lines 157 to 169):
adds `durations[task]` to the running total, buckets it into
`groups[taskToGroup[task]]`, and appends a new heading when no heading with
that key exists yet. An unknown task gives `taskToGroup[task] = undefined`. -/
def processTask (durations : TaskDurations) (acc : UrlAcc) (task : String) :
    UrlAcc :=
  let d := (getKey durations task).getD 0
  let g := getKey taskToGroup task
  let gk := optKey g
  { total := acc.total + d
    groups := setKey acc.groups gk ((getKey acc.groups gk).getD 0 + d)
    headings :=
      if acc.headings.any (fun h => h.key == g) then acc.headings
      else acc.headings ++ [{ key := g, itemType := "text", text := g }] }

/-- Accumulator of the outer map over bootupTimings in BootupTime.audit. -/
structure AuditAcc where
  total : ℚ
  headings : List Heading
  extendedInfo : List (String × TaskDurations)
  groupsPerUrl : List (String × List (String × ℚ))

/-- One step of the outer `Array.from(bootupTimings).map` of BootupTime.audit
(lines 154 to 175): records extendedInfo[url], folds the tasks of this URL,
and appends the resulting record of url and groups. -/
def processUrl (acc : AuditAcc) (e : String × TaskDurations) : AuditAcc :=
  let u := (e.2.map Prod.fst).foldl (processTask e.2)
    { total := acc.total, groups := [], headings := acc.headings }
  { total := u.total
    headings := u.headings
    extendedInfo := setKey acc.extendedInfo e.1 e.2
    groupsPerUrl := acc.groupsPerUrl ++ [(e.1, u.groups)] }

/-- The numeric value of one table cell before formatting:
`groups[heading.key] || 0` (line 181). -/
def cellValue (groups : List (String × ℚ)) (h : Heading) : ℚ :=
  (getKey groups (optKey h.key)).getD 0

/-- One result row of BootupTime.audit (lines 178 to 187):
`res[heading.key] = formatMilliseconds(groups[heading.key] || 0, 1)` for every
heading, then `res.url = url` overwrites the url cell with the raw URL. -/
def buildRow (fmt : ℚ → String) (headings : List Heading)
    (e : String × List (String × ℚ)) : List (String × String) :=
  let res := headings.foldl
    (fun res h => setKey res (optKey h.key) (fmt (cellValue e.2 h))) []
  setKey res "url" e.1

/-- The details table. Modelled from the spec: Audit.makeTableDetails lives in
the base audit class (audit.js), which is not under src/; per the output
contract of the spec it packages the headings and the row items verbatim. -/
structure TableDetails where
  headings : List Heading
  items : List (List (String × String))
deriving DecidableEq

/-- Modelled from the spec: Audit.makeTableDetails (audit.js, not under src/)
packages headings and row items into the details table. -/
def makeTableDetails (headings : List Heading)
    (items : List (List (String × String))) : TableDetails :=
  { headings := headings, items := items }

/-- The value returned by BootupTime.audit (lines 191 to 199). -/
structure AuditResult where
  score : Bool
  rawValue : ℚ
  displayValue : String
  details : TableDetails
  extendedInfo : List (String × TaskDurations)
deriving DecidableEq

/-- BootupTime.audit from the bootupTimings map on (lines 146 to 199), with
the external millisecond formatter abstracted as `fmt`. -/
def auditFromTimings (fmt : ℚ → String) (bootupTimings : UrlTimingMap) :
    AuditResult :=
  let acc := bootupTimings.foldl processUrl
    { total := 0, headings := [urlHeading], extendedInfo := [], groupsPerUrl := [] }
  let results := acc.groupsPerUrl.map (buildRow fmt acc.headings)
  { score := decide (acc.total < 4000)
    rawValue := acc.total
    displayValue := fmt acc.total
    details := makeTableDetails acc.headings results
    extendedInfo := acc.extendedInfo }

/-- BootupTime.audit (lines 142 to 200): extraction followed by aggregation,
the trace-to-tree step of the external engine being the identity here since
the tree is the input. -/
def audit (style : Event → String) (fmt : ℚ → String) (tree : GroupingTree) :
    AuditResult :=
  auditFromTimings fmt (getExecutionTimingsByURL style tree)

/-- A per-URL node whose `children` field may be absent, for the malformed
tree case. -/
structure UrlNodeOpt where
  children : Option (List TaskNode)
deriving DecidableEq

/-- BootupTime.getExecutionTimingsByURL translated once more, now keeping the
possibility that a `children` field of a URL node is absent: the call
`perUrlNode.children.forEach` on an absent field throws a TypeError, which
aborts the whole extraction. -/
def getExecutionTimingsByURLOpt (style : Event → String)
    (tree : List (String × UrlNodeOpt)) : Except String UrlTimingMap :=
  tree.foldlM
    (fun result e =>
      if e.1 = "" ∨ e.1 = "about:blank" then pure result
      else
        match e.2.children with
        | none => Except.error "TypeError: children is undefined"
        | some cs => pure (setKey result e.1 (extractTasks style cs)))
    []

/-- The headings component of one `processTask` step, in isolation: push a
new heading exactly when no heading with that key exists yet. -/
def headingStep (hs : List Heading) (g : Option String) : List Heading :=
  if hs.any (fun h => h.key == g) then hs
  else hs ++ [{ key := g, itemType := "text", text := g }]

/-- The groups component of one `processTask` step, in isolation:
`groups[taskToGroup[task]] += durations[task]` under JS key coercion. -/
def groupStep (d : TaskDurations) (gs : List (String × ℚ)) (task : String) :
    List (String × ℚ) :=
  let gk := optKey (getKey taskToGroup task)
  setKey gs gk ((getKey gs gk).getD 0 + (getKey d task).getD 0)

/-- The `groups` dictionary computed for one URL from its duration map. -/
def urlGroups (d : TaskDurations) : List (String × ℚ) :=
  (d.map Prod.fst).foldl (groupStep d) []

/-- The row-building step for a single heading:
`res[heading.key] = fmt(groups[heading.key] || 0)`. -/
def rowStep (fmt : ℚ → String) (gs : List (String × ℚ))
    (res : List (String × String)) (h : Heading) : List (String × String) :=
  setKey res (optKey h.key) (fmt (cellValue gs h))

/-- Append an element to an ordered set unless already present:
first-discovery insertion order. -/
def insertNew {α : Type} [DecidableEq α] (ks : List α) (g : α) : List α :=
  if g ∈ ks then ks else ks ++ [g]

/-- The stream of taxonomy lookups performed by the aggregator, in outer URL
iteration order then inner task iteration order. -/
def discoveredKeys (m : UrlTimingMap) : List (Option String) :=
  (m.map (fun e => (e.2.map Prod.fst).map (fun t => getKey taskToGroup t))).flatten

/-- The total duration a URL duration map contributes to the bucket of the
coerced category key `k`. -/
def bucketSum (d : TaskDurations) (k : String) : ℚ :=
  ((d.filter (fun p => optKey (getKey taskToGroup p.1) == k)).map Prod.snd).sum

/-- The total duration of the entries of a duration map whose task label has
no entry in the taxonomy. -/
def unknownSum (d : TaskDurations) : ℚ :=
  ((d.filter (fun p => !(getKey taskToGroup p.1).isSome)).map Prod.snd).sum

/-- The identity classifier used for concrete evaluations. -/
def style0 : Event → String := fun e => e

/-- A concrete injective formatter used for concrete evaluations. -/
def fmt0 : ℚ → String := fun q => toString q

/-- A concrete tree with a single URL carrying one task whose label is not in
the taxonomy. -/
def treeU : GroupingTree :=
  [("https://u.test", { children := [{ event := "Zzz Unknown", selfTime := some 100 }] })]

/-- A concrete malformed tree: one retained URL node without a children map. -/
def treeBad : List (String × UrlNodeOpt) :=
  [("https://u.test", { children := none })]

/-- A concrete tree with one retained URL whose children map is present but
empty. -/
def treeE : List (String × UrlNodeOpt) :=
  [("https://a.test", { children := some [] })]

/-- A concrete tree with one retained URL carrying one known task. -/
def treeK : GroupingTree :=
  [("https://a.test", { children := [{ event := "Evaluate Script", selfTime := some 100 }] })]

/-! ### Association-list lemmas -/

theorem getKey_setKey_self {α : Type} (l : List (String × α)) (k : String) (v : α) :
    getKey (setKey l k v) k = some v := by
  induction l with
  | nil => simp [setKey, getKey]
  | cons p rest ih =>
    by_cases h : p.1 = k
    · simp [setKey, getKey, h]
    · simp [setKey, getKey, h, ih]

theorem getKey_setKey_ne {α : Type} (l : List (String × α)) {k q : String} (v : α)
    (h : k ≠ q) : getKey (setKey l k v) q = getKey l q := by
  induction l with
  | nil => simp [setKey, getKey, h]
  | cons p rest ih =>
    by_cases hp : p.1 = k
    · simp [setKey, getKey, hp, h]
    · simp [setKey, getKey, hp, ih]

theorem keys_setKey {α : Type} (l : List (String × α)) (k : String) (v : α) :
    (setKey l k v).map Prod.fst =
      if k ∈ l.map Prod.fst then l.map Prod.fst else l.map Prod.fst ++ [k] := by
  induction l with
  | nil => simp [setKey]
  | cons p rest ih =>
    by_cases hp : p.1 = k
    · simp [setKey, hp]
    · have hk : ¬ k = p.1 := fun hh => hp hh.symm
      by_cases hm : k ∈ rest.map Prod.fst <;>
        simp [setKey, hp, ih, hm, hk]

theorem nodup_keys_setKey {α : Type} {l : List (String × α)} (k : String) (v : α)
    (h : (l.map Prod.fst).Nodup) : ((setKey l k v).map Prod.fst).Nodup := by
  rw [keys_setKey]
  by_cases hm : k ∈ l.map Prod.fst
  · simpa [hm]
  · simp only [hm, if_false]
    refine List.Nodup.append h (List.nodup_singleton _) ?_
    intro x hx hxmem
    simp only [List.mem_singleton] at hxmem
    exact hm (hxmem ▸ hx)

theorem mem_setKey {α : Type} {l : List (String × α)} {k : String} {v : α}
    {e : String × α} (h : e ∈ setKey l k v) : e ∈ l ∨ e = (k, v) := by
  induction l with
  | nil => simp [setKey] at h; simp [h]
  | cons p rest ih =>
    by_cases hp : p.1 = k
    · simp [setKey, hp] at h
      rcases h with h | h
      · right; simp [h]
      · left; simp [h]
    · simp [setKey, hp] at h
      rcases h with h | h
      · left; simp [h]
      · rcases ih h with h2 | h2
        · left; simp [h2]
        · right; exact h2

theorem getKey_of_mem_nodup {α : Type} {l : List (String × α)} {p : String × α}
    (hmem : p ∈ l) (hnd : (l.map Prod.fst).Nodup) : getKey l p.1 = some p.2 := by
  induction l with
  | nil => simp at hmem
  | cons q rest ih =>
    rcases List.mem_cons.1 hmem with h | h
    · simp [getKey, h]
    · have hq : q.1 ≠ p.1 := by
        intro hh
        have : p.1 ∈ rest.map Prod.fst := List.mem_map.2 ⟨p, h, rfl⟩
        simp [hh, this] at hnd
      simp [getKey, hq, ih h (List.nodup_cons.1 hnd).2]

theorem getKey_mem_values {α : Type} {l : List (String × α)} {q : String} {v : α}
    (h : getKey l q = some v) : v ∈ l.map Prod.snd := by
  induction l with
  | nil => simp [getKey] at h
  | cons p rest ih =>
    by_cases hp : p.1 = q
    · simp [getKey, hp] at h
      simp [h]
    · simp [getKey, hp] at h
      simp [ih h]

/-! ### Lemmas on the task extraction fold -/

theorem getD_foldl_taskStep (style : Event → String) (L : String) :
    ∀ (cs : List TaskNode) (acc : TaskDurations),
      (getKey (cs.foldl (taskStepChild style) acc) L).getD 0 =
        (getKey acc L).getD 0 +
          ((cs.filter (fun c => style c.event == L)).map
            (fun c => round1 (c.selfTime.getD 0))).sum := by
  intro cs
  induction cs with
  | nil => simp
  | cons c rest ih =>
    intro acc
    by_cases hL : style c.event = L
    · rw [List.foldl_cons, ih]
      simp [taskStepChild, hL, getKey_setKey_self]
      ring
    · rw [List.foldl_cons, ih]
      simp [taskStepChild, getKey_setKey_ne _ _ hL, hL]

theorem isSome_foldl_taskStep (style : Event → String) (L : String) :
    ∀ (cs : List TaskNode) (acc : TaskDurations),
      (getKey (cs.foldl (taskStepChild style) acc) L).isSome =
        ((getKey acc L).isSome || cs.any (fun c => style c.event == L)) := by
  intro cs
  induction cs with
  | nil => simp
  | cons c rest ih =>
    intro acc
    by_cases hL : style c.event = L
    · rw [List.foldl_cons, ih]
      simp [taskStepChild, hL, getKey_setKey_self]
    · have hb : (style c.event == L) = false := by simp [hL]
      rw [List.foldl_cons, ih]
      simp [taskStepChild, getKey_setKey_ne _ _ hL, hb]

theorem nodup_keys_foldl_taskStep (style : Event → String) :
    ∀ (cs : List TaskNode) (acc : TaskDurations),
      (acc.map Prod.fst).Nodup →
      ((cs.foldl (taskStepChild style) acc).map Prod.fst).Nodup := by
  intro cs
  induction cs with
  | nil => intro acc h; simpa using h
  | cons c rest ih =>
    intro acc h
    exact ih _ (nodup_keys_setKey _ _ h)

theorem nodup_keys_extractTasks (style : Event → String) (cs : List TaskNode) :
    ((extractTasks style cs).map Prod.fst).Nodup :=
  nodup_keys_foldl_taskStep style cs [] (by simp)

/-! ### Lemmas on the extractor fold over URL nodes -/

theorem mem_extractor_foldl {style : Event → String} :
    ∀ (tree : GroupingTree) (acc : UrlTimingMap) (e : String × TaskDurations),
      e ∈ tree.foldl
        (fun result e =>
          if e.1 = "" ∨ e.1 = "about:blank" then result
          else setKey result e.1 (extractTasks style e.2.children)) acc →
      e ∈ acc ∨ ∃ n : UrlNode, (e.1, n) ∈ tree ∧
        ¬(e.1 = "" ∨ e.1 = "about:blank") ∧ e.2 = extractTasks style n.children := by
  intro tree
  induction tree with
  | nil => intro acc e h; simp at h; exact Or.inl h
  | cons p rest ih =>
    intro acc e h
    rw [List.foldl_cons] at h
    by_cases hc : p.1 = "" ∨ p.1 = "about:blank"
    · rw [if_pos hc] at h
      rcases ih acc e h with h2 | ⟨n, hn, hr, hv⟩
      · exact Or.inl h2
      · exact Or.inr ⟨n, List.mem_cons_of_mem _ hn, hr, hv⟩
    · rw [if_neg hc] at h
      rcases ih _ e h with h2 | ⟨n, hn, hr, hv⟩
      · rcases mem_setKey h2 with h3 | h3
        · exact Or.inl h3
        · subst h3
          exact Or.inr ⟨p.2, by simp, by simpa using hc, rfl⟩
      · exact Or.inr ⟨n, List.mem_cons_of_mem _ hn, hr, hv⟩

theorem nodup_keys_extractor_foldl {style : Event → String} :
    ∀ (tree : GroupingTree) (acc : UrlTimingMap),
      (acc.map Prod.fst).Nodup →
      ((tree.foldl
        (fun result e =>
          if e.1 = "" ∨ e.1 = "about:blank" then result
          else setKey result e.1 (extractTasks style e.2.children)) acc).map
          Prod.fst).Nodup := by
  intro tree
  induction tree with
  | nil => intro acc h; simpa using h
  | cons p rest ih =>
    intro acc h
    rw [List.foldl_cons]
    by_cases hc : p.1 = "" ∨ p.1 = "about:blank"
    · rw [if_pos hc]; exact ih acc h
    · rw [if_neg hc]; exact ih _ (nodup_keys_setKey _ _ h)

theorem extractor_foldl_skip_blank {style : Event → String} :
    ∀ (tree : GroupingTree) (acc : UrlTimingMap),
      (tree.filter (fun e => !(e.1 == "" || e.1 == "about:blank"))).foldl
        (fun result e =>
          if e.1 = "" ∨ e.1 = "about:blank" then result
          else setKey result e.1 (extractTasks style e.2.children)) acc =
      tree.foldl
        (fun result e =>
          if e.1 = "" ∨ e.1 = "about:blank" then result
          else setKey result e.1 (extractTasks style e.2.children)) acc := by
  intro tree
  induction tree with
  | nil => intro acc; rfl
  | cons p rest ih =>
    intro acc
    by_cases hc : p.1 = "" ∨ p.1 = "about:blank"
    · have hb : (!(p.1 == "" || p.1 == "about:blank")) = false := by
        rcases hc with hc | hc <;> simp [hc]
      rw [List.filter_cons, if_neg (by simp [hb]), List.foldl_cons, if_pos hc]
      exact ih acc
    · have hb : (!(p.1 == "" || p.1 == "about:blank")) = true := by
        push_neg at hc
        simp [hc.1, hc.2]
      rw [List.filter_cons, if_pos (by simp [hb]), List.foldl_cons, List.foldl_cons,
        if_neg hc]
      exact ih _

theorem getKey_extractor_foldl_not_mem {style : Event → String} :
    ∀ (tree : GroupingTree) (acc : UrlTimingMap) (url : String),
      url ∉ tree.map Prod.fst →
      getKey (tree.foldl
        (fun result e =>
          if e.1 = "" ∨ e.1 = "about:blank" then result
          else setKey result e.1 (extractTasks style e.2.children)) acc) url =
      getKey acc url := by
  intro tree
  induction tree with
  | nil => intro acc url h; rfl
  | cons p rest ih =>
    intro acc url h
    simp only [List.map_cons, List.mem_cons] at h
    push_neg at h
    rw [List.foldl_cons]
    by_cases hc : p.1 = "" ∨ p.1 = "about:blank"
    · rw [if_pos hc]; exact ih acc url h.2
    · rw [if_neg hc, ih _ url h.2]
      exact getKey_setKey_ne acc _ (fun hh => h.1 hh.symm)

/-! ### Projection lemmas for the aggregation folds of BootupTime.audit -/

theorem processTask_total (d : TaskDurations) (acc : UrlAcc) (task : String) :
    (processTask d acc task).total = acc.total + (getKey d task).getD 0 := rfl

theorem processTask_groups (d : TaskDurations) (acc : UrlAcc) (task : String) :
    (processTask d acc task).groups = groupStep d acc.groups task := rfl

theorem processTask_headings (d : TaskDurations) (acc : UrlAcc) (task : String) :
    (processTask d acc task).headings =
      headingStep acc.headings (getKey taskToGroup task) := rfl

theorem foldl_processTask_total (d : TaskDurations) :
    ∀ (tasks : List String) (acc : UrlAcc),
      (tasks.foldl (processTask d) acc).total =
        acc.total + (tasks.map (fun t => (getKey d t).getD 0)).sum := by
  intro tasks
  induction tasks with
  | nil => simp
  | cons t rest ih =>
    intro acc
    rw [List.foldl_cons, ih, processTask_total]
    simp [add_assoc]

theorem foldl_processTask_groups (d : TaskDurations) :
    ∀ (tasks : List String) (acc : UrlAcc),
      (tasks.foldl (processTask d) acc).groups =
        tasks.foldl (groupStep d) acc.groups := by
  intro tasks
  induction tasks with
  | nil => intro acc; rfl
  | cons t rest ih =>
    intro acc
    rw [List.foldl_cons, ih, List.foldl_cons, processTask_groups]

theorem foldl_processTask_headings (d : TaskDurations) :
    ∀ (tasks : List String) (acc : UrlAcc),
      (tasks.foldl (processTask d) acc).headings =
        (tasks.map (fun t => getKey taskToGroup t)).foldl headingStep acc.headings := by
  intro tasks
  induction tasks with
  | nil => intro acc; rfl
  | cons t rest ih =>
    intro acc
    rw [List.foldl_cons, ih, List.map_cons, List.foldl_cons, processTask_headings]

theorem processUrl_total (acc : AuditAcc) (e : String × TaskDurations) :
    (processUrl acc e).total =
      acc.total + ((e.2.map Prod.fst).map (fun t => (getKey e.2 t).getD 0)).sum := by
  have h0 : (processUrl acc e).total =
      ((e.2.map Prod.fst).foldl (processTask e.2)
        { total := acc.total, groups := [], headings := acc.headings } : UrlAcc).total := rfl
  rw [h0, foldl_processTask_total]

theorem processUrl_headings (acc : AuditAcc) (e : String × TaskDurations) :
    (processUrl acc e).headings =
      ((e.2.map Prod.fst).map (fun t => getKey taskToGroup t)).foldl headingStep
        acc.headings := by
  have h0 : (processUrl acc e).headings =
      ((e.2.map Prod.fst).foldl (processTask e.2)
        { total := acc.total, groups := [], headings := acc.headings } : UrlAcc).headings := rfl
  rw [h0, foldl_processTask_headings]

theorem processUrl_groupsPerUrl (acc : AuditAcc) (e : String × TaskDurations) :
    (processUrl acc e).groupsPerUrl = acc.groupsPerUrl ++ [(e.1, urlGroups e.2)] := by
  have h0 : (processUrl acc e).groupsPerUrl = acc.groupsPerUrl ++
      [(e.1, ((e.2.map Prod.fst).foldl (processTask e.2)
        { total := acc.total, groups := [], headings := acc.headings } : UrlAcc).groups)] := rfl
  rw [h0, foldl_processTask_groups]
  rfl

theorem foldl_processUrl_total :
    ∀ (m : UrlTimingMap) (acc : AuditAcc),
      (m.foldl processUrl acc).total =
        acc.total +
          (m.map (fun e => ((e.2.map Prod.fst).map
            (fun t => (getKey e.2 t).getD 0)).sum)).sum := by
  intro m
  induction m with
  | nil => simp
  | cons e rest ih =>
    intro acc
    rw [List.foldl_cons, ih, processUrl_total]
    simp [add_assoc]

theorem foldl_processUrl_headings :
    ∀ (m : UrlTimingMap) (acc : AuditAcc),
      (m.foldl processUrl acc).headings =
        (discoveredKeys m).foldl headingStep acc.headings := by
  intro m
  induction m with
  | nil => intro acc; rfl
  | cons e rest ih =>
    intro acc
    rw [List.foldl_cons, ih, processUrl_headings]
    simp only [discoveredKeys, List.map_cons, List.flatten_cons, List.foldl_append]

theorem foldl_processUrl_groupsPerUrl :
    ∀ (m : UrlTimingMap) (acc : AuditAcc),
      (m.foldl processUrl acc).groupsPerUrl =
        acc.groupsPerUrl ++ m.map (fun e => (e.1, urlGroups e.2)) := by
  intro m
  induction m with
  | nil => simp
  | cons e rest ih =>
    intro acc
    rw [List.foldl_cons, ih, processUrl_groupsPerUrl]
    simp

/-! ### Heading key order: first-discovery insertion -/

theorem keys_headingStep (hs : List Heading) (g : Option String) :
    (headingStep hs g).map Heading.key = insertNew (hs.map Heading.key) g := by
  by_cases hmem : g ∈ hs.map Heading.key
  · have ha : hs.any (fun h => h.key == g) = true := by
      simp only [List.any_eq_true, beq_iff_eq]
      rcases List.mem_map.1 hmem with ⟨h, hh, hk⟩
      exact ⟨h, hh, hk⟩
    simp [headingStep, insertNew, ha, hmem]
  · have ha : hs.any (fun h => h.key == g) = false := by
      cases hb : hs.any (fun h => h.key == g) with
      | false => rfl
      | true =>
        exfalso
        rcases List.any_eq_true.1 hb with ⟨h, hh, hk⟩
        exact hmem (List.mem_map.2 ⟨h, hh, by simpa using hk⟩)
    simp [headingStep, insertNew, ha, hmem]

theorem keys_foldl_headingStep :
    ∀ (gs : List (Option String)) (hs : List Heading),
      (gs.foldl headingStep hs).map Heading.key =
        gs.foldl insertNew (hs.map Heading.key) := by
  intro gs
  induction gs with
  | nil => intro hs; rfl
  | cons g rest ih =>
    intro hs
    rw [List.foldl_cons, ih, keys_headingStep, List.foldl_cons]

theorem nodup_insertNew {α : Type} [DecidableEq α] {ks : List α} (g : α)
    (h : ks.Nodup) : (insertNew ks g).Nodup := by
  by_cases hmem : g ∈ ks
  · simpa [insertNew, hmem]
  · simp only [insertNew, hmem, if_false]
    refine List.Nodup.append h (List.nodup_singleton _) ?_
    intro x hx hxmem
    simp only [List.mem_singleton] at hxmem
    exact hmem (hxmem ▸ hx)

theorem nodup_foldl_insertNew {α : Type} [DecidableEq α] :
    ∀ (gs : List α) (ks : List α), ks.Nodup → (gs.foldl insertNew ks).Nodup := by
  intro gs
  induction gs with
  | nil => intro ks h; simpa using h
  | cons g rest ih =>
    intro ks h
    exact ih _ (nodup_insertNew g h)

theorem mem_of_mem_foldl_insertNew {α : Type} [DecidableEq α] {x : α} :
    ∀ (gs : List α) (ks : List α), x ∈ gs.foldl insertNew ks → x ∈ ks ∨ x ∈ gs := by
  intro gs
  induction gs with
  | nil => intro ks h; exact Or.inl (by simpa using h)
  | cons g rest ih =>
    intro ks h
    rcases ih _ h with h2 | h2
    · by_cases hmem : g ∈ ks
      · simp only [insertNew, hmem, if_true] at h2
        exact Or.inl h2
      · simp only [insertNew, hmem, if_false, List.mem_append, List.mem_singleton] at h2
        rcases h2 with h3 | h3
        · exact Or.inl h3
        · exact Or.inr (by simp [h3])
    · exact Or.inr (List.mem_cons_of_mem _ h2)

theorem mem_foldl_insertNew_left {α : Type} [DecidableEq α] {x : α} :
    ∀ (gs : List α) (ks : List α), x ∈ ks → x ∈ gs.foldl insertNew ks := by
  intro gs
  induction gs with
  | nil => intro ks h; simpa using h
  | cons g rest ih =>
    intro ks h
    refine ih _ ?_
    by_cases hmem : g ∈ ks
    · simpa [insertNew, hmem] using h
    · simp [insertNew, hmem, h]

theorem mem_foldl_insertNew_right {α : Type} [DecidableEq α] {x : α} :
    ∀ (gs : List α) (ks : List α), x ∈ gs → x ∈ gs.foldl insertNew ks := by
  intro gs
  induction gs with
  | nil => intro ks h; simp at h
  | cons g rest ih =>
    intro ks h
    rcases List.mem_cons.1 h with h2 | h2
    · subst h2
      refine mem_foldl_insertNew_left rest _ ?_
      by_cases hmem : x ∈ ks <;> simp [insertNew, hmem]
    · exact ih _ h2

theorem exists_append_foldl_headingStep :
    ∀ (gs : List (Option String)) (hs : List Heading),
      ∃ t, gs.foldl headingStep hs = hs ++ t := by
  intro gs
  induction gs with
  | nil => intro hs; exact ⟨[], by simp⟩
  | cons g rest ih =>
    intro hs
    rw [List.foldl_cons]
    by_cases hc : hs.any (fun h => h.key == g) = true
    · have hstep : headingStep hs g = hs := by simp [headingStep, hc]
      rw [hstep]
      exact ih hs
    · have hstep : headingStep hs g =
          hs ++ [{ key := g, itemType := "text", text := g }] := by
        simp [headingStep, hc]
      rcases ih (hs ++ [{ key := g, itemType := "text", text := g }]) with ⟨t, ht⟩
      refine ⟨{ key := g, itemType := "text", text := g } :: t, ?_⟩
      rw [hstep, ht]
      simp

/-! ### Summing lookups over keys versus summing stored values -/

theorem lookup_filter_keys_eq_values {P : String → Bool} :
    ∀ (d : TaskDurations), (d.map Prod.fst).Nodup →
      ((d.map Prod.fst).filter P).map (fun t => (getKey d t).getD 0) =
        (d.filter (fun p => P p.1)).map Prod.snd := by
  intro d
  induction d with
  | nil => intro h; simp
  | cons p rest ih =>
    intro hnd
    rw [List.map_cons] at hnd
    have hp1 : p.1 ∉ rest.map Prod.fst := (List.nodup_cons.1 hnd).1
    have hrest : (rest.map Prod.fst).Nodup := (List.nodup_cons.1 hnd).2
    have htail : ((rest.map Prod.fst).filter P).map (fun t => (getKey (p :: rest) t).getD 0) =
        ((rest.map Prod.fst).filter P).map (fun t => (getKey rest t).getD 0) := by
      apply List.map_congr_left
      intro t ht
      have htm : t ∈ rest.map Prod.fst := List.mem_of_mem_filter ht
      have hne : p.1 ≠ t := fun hh => hp1 (hh ▸ htm)
      simp [getKey, hne]
    by_cases hP : P p.1 = true
    · have hL : List.filter P (p.1 :: rest.map Prod.fst) =
          p.1 :: List.filter P (rest.map Prod.fst) := by
        simp [List.filter_cons, hP]
      have hR : List.filter (fun q => P q.1) (p :: rest) =
          p :: List.filter (fun q => P q.1) rest := by
        simp [List.filter_cons, hP]
      rw [List.map_cons, hL, hR, List.map_cons, List.map_cons, htail, ih hrest]
      simp [getKey]
    · have hL : List.filter P (p.1 :: rest.map Prod.fst) =
          List.filter P (rest.map Prod.fst) := by
        simp [List.filter_cons, hP]
      have hR : List.filter (fun q => P q.1) (p :: rest) =
          List.filter (fun q => P q.1) rest := by
        simp [List.filter_cons, hP]
      rw [List.map_cons, hL, hR, htail, ih hrest]

theorem lookup_keys_eq_values :
    ∀ (d : TaskDurations), (d.map Prod.fst).Nodup →
      (d.map Prod.fst).map (fun t => (getKey d t).getD 0) = d.map Prod.snd := by
  intro d hnd
  have h := lookup_filter_keys_eq_values (P := fun _ => true) d hnd
  simpa using h

/-! ### The per-URL groups dictionary buckets durations by coerced key -/

theorem getD_foldl_groupStep (d : TaskDurations) (k : String) :
    ∀ (tasks : List String) (gs : List (String × ℚ)),
      (getKey (tasks.foldl (groupStep d) gs) k).getD 0 =
        (getKey gs k).getD 0 +
          ((tasks.filter (fun t => optKey (getKey taskToGroup t) == k)).map
            (fun t => (getKey d t).getD 0)).sum := by
  intro tasks
  induction tasks with
  | nil => simp
  | cons t rest ih =>
    intro gs
    by_cases hk : optKey (getKey taskToGroup t) = k
    · rw [List.foldl_cons, ih]
      simp [groupStep, hk, getKey_setKey_self]
      ring
    · have hb : (optKey (getKey taskToGroup t) == k) = false := by simp [hk]
      rw [List.foldl_cons, ih]
      simp [groupStep, getKey_setKey_ne _ _ hk, hb]

theorem getD_urlGroups (d : TaskDurations) (k : String)
    (hnd : (d.map Prod.fst).Nodup) :
    (getKey (urlGroups d) k).getD 0 = bucketSum d k := by
  rw [urlGroups, getD_foldl_groupStep]
  rw [lookup_filter_keys_eq_values d hnd]
  simp [getKey, bucketSum]

/-! ### Partition: summing bucket totals over a covering key set -/

theorem sum_map_ite_mem (k0 : String) (c : ℚ) (f : String → ℚ) :
    ∀ (K : List String), K.Nodup → k0 ∈ K →
      (K.map (fun k => if k0 = k then c + f k else f k)).sum = c + (K.map f).sum := by
  intro K
  induction K with
  | nil => intro h1 h2; simp at h2
  | cons k1 rest ih =>
    intro hnd hmem
    have h1 : k1 ∉ rest := (List.nodup_cons.1 hnd).1
    have h2 : rest.Nodup := (List.nodup_cons.1 hnd).2
    by_cases hk : k0 = k1
    · subst hk
      have htail : rest.map (fun k => if k0 = k then c + f k else f k) = rest.map f := by
        apply List.map_congr_left
        intro k hkmem
        have : k0 ≠ k := fun hh => h1 (hh ▸ hkmem)
        simp [this]
      simp only [List.map_cons, List.sum_cons, htail, if_true]
      ring
    · have hmem2 : k0 ∈ rest := by
        rcases List.mem_cons.1 hmem with h | h
        · exact absurd h hk
        · exact h
      simp only [List.map_cons, List.sum_cons, if_neg hk, ih h2 hmem2]
      ring

theorem bucketSum_cons (p : String × ℚ) (rest : TaskDurations) (k : String) :
    bucketSum (p :: rest) k =
      if optKey (getKey taskToGroup p.1) = k then p.2 + bucketSum rest k
      else bucketSum rest k := by
  by_cases h : optKey (getKey taskToGroup p.1) = k <;>
    simp [bucketSum, List.filter_cons, h]

theorem sum_bucketSum :
    ∀ (d : TaskDurations) (K : List String), K.Nodup →
      (∀ p ∈ d, optKey (getKey taskToGroup p.1) ∈ K) →
      (K.map (bucketSum d)).sum = (d.map Prod.snd).sum := by
  intro d
  induction d with
  | nil =>
    intro K h1 h2
    have : K.map (bucketSum []) = K.map (fun _ => (0 : ℚ)) := by
      apply List.map_congr_left
      intro k hk
      simp [bucketSum]
    simp [this]
  | cons p rest ih =>
    intro K hK hcov
    have hk0 : optKey (getKey taskToGroup p.1) ∈ K := hcov p (by simp)
    have hfun : bucketSum (p :: rest) =
        fun k => if optKey (getKey taskToGroup p.1) = k then p.2 + bucketSum rest k
          else bucketSum rest k :=
      funext (fun k => bucketSum_cons p rest k)
    rw [hfun, sum_map_ite_mem _ p.2 (bucketSum rest) K hK hk0,
      ih K hK (fun q hq => hcov q (List.mem_cons_of_mem _ hq))]
    simp

/-! ### Facts about the taxonomy values -/

theorem undefined_not_in_values : "undefined" ∉ taskToGroup.map Prod.snd := by decide

theorem url_not_in_values : "url" ∉ taskToGroup.map Prod.snd := by decide

/-! ### Row cell lookup -/

theorem buildRow_eq (fmt : ℚ → String) (hs : List Heading)
    (e : String × List (String × ℚ)) :
    buildRow fmt hs e = setKey (hs.foldl (rowStep fmt e.2) []) "url" e.1 := rfl

theorem getKey_buildRow_url (fmt : ℚ → String) (hs : List Heading)
    (e : String × List (String × ℚ)) :
    getKey (buildRow fmt hs e) "url" = some e.1 := by
  rw [buildRow_eq]
  exact getKey_setKey_self _ _ _

theorem getKey_buildRow_ne (fmt : ℚ → String) (hs : List Heading)
    (e : String × List (String × ℚ)) {s : String} (hne : s ≠ "url") :
    getKey (buildRow fmt hs e) s = getKey (hs.foldl (rowStep fmt e.2) []) s := by
  rw [buildRow_eq]
  exact getKey_setKey_ne _ _ (fun hh => hne hh.symm)

theorem getKey_foldl_rowStep_not_mem (fmt : ℚ → String)
    (gs : List (String × ℚ)) (s : String) :
    ∀ (hs : List Heading) (res : List (String × String)),
      s ∉ hs.map (fun h => optKey h.key) →
      getKey (hs.foldl (rowStep fmt gs) res) s = getKey res s := by
  intro hs
  induction hs with
  | nil => intro res h; rfl
  | cons h1 rest ih =>
    intro res h
    simp only [List.map_cons, List.mem_cons] at h
    push_neg at h
    rw [List.foldl_cons, ih _ h.2]
    exact getKey_setKey_ne _ _ (fun hh => h.1 hh.symm)

theorem getKey_foldl_rowStep_mem (fmt : ℚ → String) (gs : List (String × ℚ))
    (s : String) :
    ∀ (hs : List Heading) (res : List (String × String)) (h : Heading),
      (hs.map (fun h => optKey h.key)).Nodup → h ∈ hs → optKey h.key = s →
      getKey (hs.foldl (rowStep fmt gs) res) s = some (fmt (cellValue gs h)) := by
  intro hs
  induction hs with
  | nil => intro res h _ hmem _; simp at hmem
  | cons h1 rest ih =>
    intro res h hnd hmem hks
    rw [List.map_cons] at hnd
    have hndc := List.nodup_cons.1 hnd
    by_cases hc : optKey h1.key = s
    · have hh1 : h = h1 := by
        rcases List.mem_cons.1 hmem with hm | hm
        · exact hm
        · exfalso
          apply hndc.1
          rw [hc]
          rw [← hks]
          exact List.mem_map.2 ⟨h, hm, rfl⟩
      subst hh1
      rw [List.foldl_cons,
        getKey_foldl_rowStep_not_mem fmt gs s rest _ (by rw [← hc]; exact hndc.1),
        rowStep, hc, getKey_setKey_self]
    · have hmem2 : h ∈ rest := by
        rcases List.mem_cons.1 hmem with hm | hm
        · exact absurd (hm ▸ hks : optKey h1.key = s) hc
        · exact hm
      rw [List.foldl_cons]
      exact ih _ h hndc.2 hmem2 hks

/-! ### Characterizations of the audit result fields -/

theorem audit_rawValue_eq (style : Event → String) (fmt : ℚ → String)
    (tree : GroupingTree) :
    (audit style fmt tree).rawValue =
      ((getExecutionTimingsByURL style tree).map
        (fun e => ((e.2.map Prod.fst).map (fun t => (getKey e.2 t).getD 0)).sum)).sum := by
  have h0 : (audit style fmt tree).rawValue =
      ((getExecutionTimingsByURL style tree).foldl processUrl
        { total := 0, headings := [urlHeading], extendedInfo := [],
          groupsPerUrl := [] } : AuditAcc).total := rfl
  rw [h0, foldl_processUrl_total]
  simp

theorem audit_score_eq (style : Event → String) (fmt : ℚ → String)
    (tree : GroupingTree) :
    (audit style fmt tree).score = decide ((audit style fmt tree).rawValue < 4000) := rfl

theorem audit_headings_eq (style : Event → String) (fmt : ℚ → String)
    (tree : GroupingTree) :
    (audit style fmt tree).details.headings =
      (discoveredKeys (getExecutionTimingsByURL style tree)).foldl headingStep
        [urlHeading] := by
  have h0 : (audit style fmt tree).details.headings =
      ((getExecutionTimingsByURL style tree).foldl processUrl
        { total := 0, headings := [urlHeading], extendedInfo := [],
          groupsPerUrl := [] } : AuditAcc).headings := rfl
  rw [h0, foldl_processUrl_headings]

theorem audit_items_eq (style : Event → String) (fmt : ℚ → String)
    (tree : GroupingTree) :
    (audit style fmt tree).details.items =
      ((getExecutionTimingsByURL style tree).map (fun e => (e.1, urlGroups e.2))).map
        (buildRow fmt ((audit style fmt tree).details.headings)) := by
  have h0 : (audit style fmt tree).details.items =
      (((getExecutionTimingsByURL style tree).foldl processUrl
        { total := 0, headings := [urlHeading], extendedInfo := [],
          groupsPerUrl := [] } : AuditAcc).groupsPerUrl).map
        (buildRow fmt (((getExecutionTimingsByURL style tree).foldl processUrl
          { total := 0, headings := [urlHeading], extendedInfo := [],
            groupsPerUrl := [] } : AuditAcc).headings)) := rfl
  rw [h0, foldl_processUrl_groupsPerUrl]
  simp only [List.nil_append]
  have h1 : (audit style fmt tree).details.headings =
      ((getExecutionTimingsByURL style tree).foldl processUrl
        { total := 0, headings := [urlHeading], extendedInfo := [],
          groupsPerUrl := [] } : AuditAcc).headings := rfl
  rw [h1]

theorem audit_headings_keys (style : Event → String) (fmt : ℚ → String)
    (tree : GroupingTree) :
    (audit style fmt tree).details.headings.map Heading.key =
      (discoveredKeys (getExecutionTimingsByURL style tree)).foldl insertNew
        [some "url"] := by
  rw [audit_headings_eq, keys_foldl_headingStep]
  rfl

theorem audit_headings_keys_nodup (style : Event → String) (fmt : ℚ → String)
    (tree : GroupingTree) :
    ((audit style fmt tree).details.headings.map Heading.key).Nodup := by
  rw [audit_headings_keys]
  exact nodup_foldl_insertNew _ _ (by simp)

theorem mem_discoveredKeys {m : UrlTimingMap} {k : Option String} :
    k ∈ discoveredKeys m ↔
      ∃ e ∈ m, ∃ t ∈ e.2.map Prod.fst, k = getKey taskToGroup t := by
  constructor
  · intro h
    simp only [discoveredKeys, List.mem_flatten, List.mem_map] at h
    rcases h with ⟨l, ⟨e, he, rfl⟩, hk⟩
    rcases List.mem_map.1 hk with ⟨t, ht, rfl⟩
    exact ⟨e, he, t, ht, rfl⟩
  · rintro ⟨e, he, t, ht, rfl⟩
    simp only [discoveredKeys, List.mem_flatten, List.mem_map]
    exact ⟨(e.2.map Prod.fst).map (fun t => getKey taskToGroup t), ⟨e, he, rfl⟩,
      List.mem_map.2 ⟨t, ht, rfl⟩⟩

theorem mem_audit_headings_keys {style : Event → String} {fmt : ℚ → String}
    {tree : GroupingTree} {k : Option String}
    (h : k ∈ (audit style fmt tree).details.headings.map Heading.key) :
    k = some "url" ∨ k = none ∨
      ∃ v, v ∈ taskToGroup.map Prod.snd ∧ k = some v := by
  rw [audit_headings_keys] at h
  rcases mem_of_mem_foldl_insertNew _ _ h with h2 | h2
  · left
    simpa using h2
  · rcases mem_discoveredKeys.1 h2 with ⟨e, he, t, ht, rfl⟩
    cases hk : getKey taskToGroup t with
    | none => right; left; rfl
    | some v => right; right; exact ⟨v, getKey_mem_values hk, rfl⟩

theorem some_undefined_not_mem_keys (style : Event → String) (fmt : ℚ → String)
    (tree : GroupingTree) :
    some "undefined" ∉ (audit style fmt tree).details.headings.map Heading.key := by
  intro h
  rcases mem_audit_headings_keys h with h1 | h1 | ⟨v, hv, h1⟩
  · exact absurd (Option.some.inj h1) (by decide)
  · simp at h1
  · exact undefined_not_in_values ((Option.some.inj h1).symm ▸ hv)

theorem audit_headings_coerced_nodup (style : Event → String) (fmt : ℚ → String)
    (tree : GroupingTree) :
    ((audit style fmt tree).details.headings.map (fun h => optKey h.key)).Nodup := by
  have hmm : (audit style fmt tree).details.headings.map (fun h => optKey h.key) =
      ((audit style fmt tree).details.headings.map Heading.key).map optKey := by
    rw [List.map_map]
    rfl
  rw [hmm]
  refine List.Nodup.map_on ?_ (audit_headings_keys_nodup style fmt tree)
  intro a ha b hb hab
  cases a with
  | none =>
    cases b with
    | none => rfl
    | some sb =>
      exfalso
      have : sb = "undefined" := by simpa [optKey] using hab.symm
      exact some_undefined_not_mem_keys style fmt tree (this ▸ hb)
  | some sa =>
    cases b with
    | none =>
      exfalso
      have : sa = "undefined" := by simpa [optKey] using hab
      exact some_undefined_not_mem_keys style fmt tree (this ▸ ha)
    | some sb =>
      have : sa = sb := by simpa [optKey] using hab
      rw [this]

/-! ### Claim C1 -/

/-- C1: for every trace, the grand total reported as rawValue equals the sum,
over all retained URLs and over all task-type labels in each retained URL
duration map, of the task durations; the category grouping neither loses nor
double-counts time. -/
theorem audit_rawValue_eq_sum_durations (style : Event → String)
    (fmt : ℚ → String) (tree : GroupingTree) :
    (audit style fmt tree).rawValue =
      ((getExecutionTimingsByURL style tree).map
        (fun e => (e.2.map Prod.snd).sum)).sum := by
  rw [audit_rawValue_eq]
  apply congrArg List.sum
  apply List.map_congr_left
  intro e he
  have hext := mem_extractor_foldl tree [] e
    (by simpa [getExecutionTimingsByURL] using he)
  rcases hext with h2 | ⟨n, hn, hret, hval⟩
  · simp at h2
  · have hnd : (e.2.map Prod.fst).Nodup := by
      rw [hval]
      exact nodup_keys_extractTasks style n.children
    exact congrArg List.sum (lookup_keys_eq_values e.2 hnd)

/-! ### Claim C2 -/

/-- C2: for every trace, the audit score is true exactly when the grand total
rawValue is strictly below 4000 milliseconds; at exactly 4000 the score is
false. -/
theorem audit_score_iff_lt_threshold (style : Event → String) (fmt : ℚ → String)
    (tree : GroupingTree) :
    ((audit style fmt tree).score = true ↔ (audit style fmt tree).rawValue < 4000) := by
  rw [audit_score_eq, decide_eq_true_eq]

/-! ### Claim C3 -/

/-- C3: for every input tree, URL nodes keyed by the empty string or by
"about:blank" are skipped: every retained entry has a different key, removing
the skipped nodes changes nothing in the audit result (so their children
contribute nothing to the grand total), and the rows are exactly the retained
URLs. -/
theorem blank_urls_skipped (style : Event → String) (fmt : ℚ → String)
    (tree : GroupingTree) :
    ((getExecutionTimingsByURL style tree).all
        (fun e => !(e.1 == "" || e.1 == "about:blank")) = true)
    ∧ audit style fmt (tree.filter (fun e => !(e.1 == "" || e.1 == "about:blank"))) =
        audit style fmt tree
    ∧ (audit style fmt tree).details.items.map (fun row => getKey row "url") =
        (getExecutionTimingsByURL style tree).map (fun e => some e.1) := by
  refine ⟨?_, ?_, ?_⟩
  · rw [List.all_eq_true]
    intro e he
    have hext := mem_extractor_foldl tree [] e
      (by simpa [getExecutionTimingsByURL] using he)
    rcases hext with h2 | ⟨n, hn, hret, hval⟩
    · simp at h2
    · push_neg at hret
      simp [hret.1, hret.2]
  · have hx : getExecutionTimingsByURL style
        (tree.filter (fun e => !(e.1 == "" || e.1 == "about:blank"))) =
        getExecutionTimingsByURL style tree :=
      extractor_foldl_skip_blank tree []
    show auditFromTimings fmt _ = auditFromTimings fmt _
    rw [hx]
  · rw [audit_items_eq, List.map_map, List.map_map]
    apply List.map_congr_left
    intro e he
    simp only [Function.comp]
    exact getKey_buildRow_url fmt _ _

/-! ### Claim C4 -/

/-- C4: for every trace, the headings list has no duplicate keys, starts with
the fixed url heading, and its keys are exactly the first-discovery insertion
order of the taxonomy lookups encountered across the outer URL iteration then
the inner task iteration. -/
theorem headings_url_first_nodup_discovery_order (style : Event → String)
    (fmt : ℚ → String) (tree : GroupingTree) :
    ((audit style fmt tree).details.headings.map Heading.key).Nodup
    ∧ (audit style fmt tree).details.headings.head? = some urlHeading
    ∧ (audit style fmt tree).details.headings.map Heading.key =
        (discoveredKeys (getExecutionTimingsByURL style tree)).foldl insertNew
          [some "url"] := by
  refine ⟨audit_headings_keys_nodup style fmt tree, ?_,
    audit_headings_keys style fmt tree⟩
  rw [audit_headings_eq]
  rcases exists_append_foldl_headingStep
    (discoveredKeys (getExecutionTimingsByURL style tree)) [urlHeading] with ⟨t, ht⟩
  rw [ht]
  rfl

/-! ### Claim C8 -/

/-- C8: the duration map of a URL node is built by rounding each child
self-time to one decimal place first and then summing per display label:
the entry of label L is exactly the sum of the individually rounded
self-times of the children classified as L, and is absent when no child is. -/
theorem selftime_rounded_before_summation (style : Event → String)
    (cs : List TaskNode) (L : String) :
    getKey (extractTasks style cs) L =
      if cs.any (fun c => style c.event == L) then
        some (((cs.filter (fun c => style c.event == L)).map
          (fun c => round1 (c.selfTime.getD 0))).sum)
      else none := by
  have h1 := getD_foldl_taskStep style L cs []
  have h2 := isSome_foldl_taskStep style L cs []
  by_cases hc : cs.any (fun c => style c.event == L) = true
  · rw [if_pos hc]
    have hsome : (getKey (extractTasks style cs) L).isSome = true := by
      show (getKey (cs.foldl (taskStepChild style) []) L).isSome = true
      rw [h2]
      simp [hc, getKey]
    rcases Option.isSome_iff_exists.1 hsome with ⟨v, hv⟩
    have hgd : (getKey (cs.foldl (taskStepChild style) []) L).getD 0 =
        ((cs.filter (fun c => style c.event == L)).map
          (fun c => round1 (c.selfTime.getD 0))).sum := by
      rw [h1]
      simp [getKey]
    have hv2 : getKey (cs.foldl (taskStepChild style) []) L = some v := hv
    rw [hv2] at hgd
    show getKey (cs.foldl (taskStepChild style) []) L = _
    rw [hv2]
    simpa using hgd
  · rw [if_neg hc]
    have hns : (getKey (cs.foldl (taskStepChild style) []) L).isSome = false := by
      rw [h2]
      simp [getKey]
      simpa using hc
    cases hopt : getKey (cs.foldl (taskStepChild style) []) L with
    | none => exact hopt
    | some v =>
      rw [hopt] at hns
      simp at hns

/-! ### Claim C10 -/

/-- C10: a task child whose selfTime is missing or zero contributes exactly
zero milliseconds: replacing an absent selfTime by an explicit zero leaves the
extracted duration map unchanged, and the step for such a child adds zero to
the entry of its label. -/
theorem missing_selftime_contributes_zero (style : Event → String)
    (pre post : List TaskNode) (e : Event) (tasks : TaskDurations) :
    extractTasks style (pre ++ { event := e, selfTime := none } :: post) =
      extractTasks style (pre ++ { event := e, selfTime := some 0 } :: post)
    ∧ taskStepChild style tasks { event := e, selfTime := none } =
        setKey tasks (style e) ((getKey tasks (style e)).getD 0 + 0) := by
  constructor
  · show (pre ++ _ :: post).foldl (taskStepChild style) [] =
      (pre ++ _ :: post).foldl (taskStepChild style) []
    rw [List.foldl_append, List.foldl_append, List.foldl_cons, List.foldl_cons]
    rfl
  · have hr : round1 0 = 0 := by
      simp [round1]
    simp [taskStepChild, hr]

/-! ### Claim C9 -/

/-- C9: a trace whose extraction yields an empty UrlTimingMap still produces a
complete audit result: zero rows, rawValue 0, passing score, the formatted
zero displayValue, the bare url heading and empty extendedInfo. -/
theorem empty_timings_zero_result (style : Event → String) (fmt : ℚ → String)
    (tree : GroupingTree) (h : getExecutionTimingsByURL style tree = []) :
    audit style fmt tree =
      { score := true, rawValue := 0, displayValue := fmt 0,
        details := makeTableDetails [urlHeading] [], extendedInfo := [] } := by
  show auditFromTimings fmt (getExecutionTimingsByURL style tree) = _
  rw [h]
  simp [auditFromTimings, makeTableDetails, show (0 : ℚ) < 4000 by norm_num]

/-- Witness for C9 at the empty trace. -/
theorem empty_timings_zero_result_witness :
    audit style0 fmt0 [] =
      { score := true, rawValue := 0, displayValue := fmt0 0,
        details := makeTableDetails [urlHeading] [], extendedInfo := [] } :=
  empty_timings_zero_result style0 fmt0 [] rfl

/-! ### Claim C7 -/

/-- C7: for every URL of the UrlTimingMap whose task labels are all in the
taxonomy, the sum of the numeric values behind its category row cells (the
values that the external formatter renders, over every non-url heading)
equals the sum of that URL raw task durations. -/
theorem row_category_sum_eq_url_total (style : Event → String)
    (fmt : ℚ → String) (tree : GroupingTree) (e : String × TaskDurations)
    (hmem : e ∈ getExecutionTimingsByURL style tree)
    (hmapped : e.2.all (fun p => (getKey taskToGroup p.1).isSome) = true) :
    (((audit style fmt tree).details.headings.filter
        (fun h => !(h.key == some "url"))).map
      (fun h => cellValue (urlGroups e.2) h)).sum = (e.2.map Prod.snd).sum := by
  have hext := mem_extractor_foldl tree [] e
    (by simpa [getExecutionTimingsByURL] using hmem)
  have hnd2 : (e.2.map Prod.fst).Nodup := by
    rcases hext with h2 | ⟨n, hn, hret, hval⟩
    · simp at h2
    · rw [hval]
      exact nodup_keys_extractTasks style n.children
  have hcell : ((audit style fmt tree).details.headings.filter
        (fun h => !(h.key == some "url"))).map
      (fun h => cellValue (urlGroups e.2) h) =
      ((audit style fmt tree).details.headings.filter
        (fun h => !(h.key == some "url"))).map
      (fun h => bucketSum e.2 (optKey h.key)) := by
    apply List.map_congr_left
    intro h hh
    show cellValue (urlGroups e.2) h = bucketSum e.2 (optKey h.key)
    simp only [cellValue]
    exact getD_urlGroups e.2 _ hnd2
  have hmm : ((audit style fmt tree).details.headings.filter
        (fun h => !(h.key == some "url"))).map
      (fun h => bucketSum e.2 (optKey h.key)) =
      (((audit style fmt tree).details.headings.filter
        (fun h => !(h.key == some "url"))).map
        (fun h => optKey h.key)).map (bucketSum e.2) := by
    rw [List.map_map]
    rfl
  rw [hcell, hmm]
  have hsub : List.Sublist
      (((audit style fmt tree).details.headings.filter
        (fun h => !(h.key == some "url"))).map (fun h => optKey h.key))
      ((audit style fmt tree).details.headings.map (fun h => optKey h.key)) :=
    List.Sublist.map _ (List.filter_sublist _)
  have hKnd := hsub.nodup (audit_headings_coerced_nodup style fmt tree)
  apply sum_bucketSum e.2 _ hKnd
  intro p hp
  have hks : (getKey taskToGroup p.1).isSome = true := by
    rw [List.all_eq_true] at hmapped
    exact hmapped p hp
  rcases Option.isSome_iff_exists.1 hks with ⟨c, hc⟩
  have hcv : c ∈ taskToGroup.map Prod.snd := getKey_mem_values hc
  have hcnurl : c ≠ "url" := fun hh => url_not_in_values (hh ▸ hcv)
  have hdisc : (some c : Option String) ∈
      discoveredKeys (getExecutionTimingsByURL style tree) :=
    mem_discoveredKeys.2 ⟨e, hmem, p.1, List.mem_map.2 ⟨p, hp, rfl⟩, hc.symm⟩
  have hkeys : (some c : Option String) ∈
      (audit style fmt tree).details.headings.map Heading.key := by
    rw [audit_headings_keys]
    exact mem_foldl_insertNew_right _ _ hdisc
  rcases List.mem_map.1 hkeys with ⟨h, hh, hhk⟩
  have hfil : h ∈ (audit style fmt tree).details.headings.filter
      (fun h => !(h.key == some "url")) := by
    rw [List.mem_filter]
    refine ⟨hh, ?_⟩
    simp [hhk, hcnurl]
  have hco : optKey h.key = c := by
    rw [hhk]
    rfl
  rw [hc]
  exact List.mem_map.2 ⟨h, hfil, hco⟩

/-- Witness for C7 on a one-URL, one-known-task trace. -/
theorem row_category_sum_eq_url_total_witness :
    (((audit style0 fmt0 treeK).details.headings.filter
        (fun h => !(h.key == some "url"))).map
      (fun h => cellValue (urlGroups [("Evaluate Script", (100 : ℚ))]) h)).sum =
      ([("Evaluate Script", (100 : ℚ))].map Prod.snd).sum := by
  have hX : getExecutionTimingsByURL style0 treeK =
      [("https://a.test", [("Evaluate Script", 100)])] := by
    simp [getExecutionTimingsByURL, extractTasks, taskStepChild, setKey, getKey,
      style0, treeK] <;> norm_num [round1]
  exact row_category_sum_eq_url_total style0 fmt0 treeK
    ("https://a.test", [("Evaluate Script", 100)])
    (by rw [hX]; simp) (by decide)

/-! ### Claim C5 -/

theorem bucketSum_undefined (d : TaskDurations) :
    bucketSum d "undefined" = unknownSum d := by
  unfold bucketSum unknownSum
  congr 1
  apply congrArg
  apply List.filter_congr
  intro p hp
  cases hk : getKey taskToGroup p.1 with
  | none => simp [optKey, hk]
  | some v =>
    have hv : v ∈ taskToGroup.map Prod.snd := getKey_mem_values hk
    have hne : v ≠ "undefined" := fun hh => undefined_not_in_values (hh ▸ hv)
    simp [optKey, hk, hne]

theorem none_key_mem_iff (style : Event → String) (fmt : ℚ → String)
    (tree : GroupingTree) :
    ((none : Option String) ∈ (audit style fmt tree).details.headings.map Heading.key) ↔
      ∃ e ∈ getExecutionTimingsByURL style tree, ∃ p ∈ e.2,
        getKey taskToGroup p.1 = none := by
  rw [audit_headings_keys]
  constructor
  · intro h
    rcases mem_of_mem_foldl_insertNew _ _ h with h2 | h2
    · simp at h2
    · rcases mem_discoveredKeys.1 h2 with ⟨e, he, t, ht, hk⟩
      rcases List.mem_map.1 ht with ⟨p, hp, rfl⟩
      exact ⟨e, he, p, hp, hk.symm⟩
  · rintro ⟨e, he, p, hp, hk⟩
    apply mem_foldl_insertNew_right
    exact mem_discoveredKeys.2 ⟨e, he, p.1, List.mem_map.2 ⟨p, hp, rfl⟩, hk.symm⟩

/-- C5 (counterexample to the claim as stated): on a trace with one URL and
one unknown task label, a heading with the undefined key is pushed and the
row does carry the unknown time in its cell keyed "undefined". -/
theorem unknown_task_attributed_counterexample :
    (audit style0 fmt0 treeU).details.headings =
        [urlHeading, { key := none, itemType := "text", text := none }]
    ∧ (audit style0 fmt0 treeU).details.items.map (fun row => getKey row "undefined") =
        [some (fmt0 100)]
    ∧ (audit style0 fmt0 treeU).rawValue = 100 := by
  have hlookup : getKey taskToGroup "Zzz Unknown" = none := by decide
  have hround : round1 100 = 100 := by norm_num [round1]
  have hX : getExecutionTimingsByURL style0 treeU =
      [("https://u.test", [("Zzz Unknown", 100)])] := by
    simp [getExecutionTimingsByURL, extractTasks, taskStepChild, setKey, getKey,
      style0, treeU, hround]
  have hAudit : audit style0 fmt0 treeU =
      auditFromTimings fmt0 [("https://u.test", [("Zzz Unknown", 100)])] := by
    show auditFromTimings fmt0 (getExecutionTimingsByURL style0 treeU) = _
    rw [hX]
  rw [hAudit]
  refine ⟨?_, ?_, ?_⟩
  · simp [auditFromTimings, processUrl, processTask, setKey, getKey, optKey,
      urlHeading, makeTableDetails, hlookup]
  · simp [auditFromTimings, processUrl, processTask, setKey, getKey, optKey,
      urlHeading, makeTableDetails, hlookup, buildRow, rowStep, cellValue]
  · simp [auditFromTimings, processUrl, processTask, setKey, getKey, optKey,
      urlHeading, makeTableDetails, hlookup]

/-- C5 (amended): an unknown task label is counted in the grand total and its
time is attributed to a synthetic column: a single heading with undefined key
and text appears exactly when some retained URL has an unmapped label, and
every row then carries its own total unmapped time in a cell keyed by the
string "undefined" (the JS coercion of the undefined key). -/
theorem unknown_task_undefined_column (style : Event → String)
    (fmt : ℚ → String) (tree : GroupingTree) :
    ((audit style fmt tree).details.headings.any
        (fun h => h.key == (none : Option String)) =
      (getExecutionTimingsByURL style tree).any
        (fun e => e.2.any (fun p => !(getKey taskToGroup p.1).isSome)))
    ∧ (audit style fmt tree).details.items.map (fun row => getKey row "undefined") =
        (getExecutionTimingsByURL style tree).map (fun e =>
          if (audit style fmt tree).details.headings.any
              (fun h => h.key == (none : Option String)) then
            some (fmt (unknownSum e.2))
          else none) := by
  constructor
  · have hbool : ∀ {b1 b2 : Bool}, (b1 = true ↔ b2 = true) → b1 = b2 := by
      intro b1 b2 hb
      cases b1 <;> cases b2 <;> simp_all
    apply hbool
    have hl : ((audit style fmt tree).details.headings.any
        (fun h => h.key == (none : Option String)) = true) ↔
        (none : Option String) ∈
          (audit style fmt tree).details.headings.map Heading.key := by
      simp [List.any_eq_true]
    have hr : ((getExecutionTimingsByURL style tree).any
        (fun e => e.2.any (fun p => !(getKey taskToGroup p.1).isSome)) = true) ↔
        ∃ e ∈ getExecutionTimingsByURL style tree, ∃ p ∈ e.2,
          getKey taskToGroup p.1 = none := by
      simp [List.any_eq_true, Option.not_isSome_iff_eq_none]
    rw [hl, hr]
    exact none_key_mem_iff style fmt tree
  · rw [audit_items_eq, List.map_map, List.map_map]
    apply List.map_congr_left
    intro e he
    simp only [Function.comp]
    have hext := mem_extractor_foldl tree [] e
      (by simpa [getExecutionTimingsByURL] using he)
    have hnd2 : (e.2.map Prod.fst).Nodup := by
      rcases hext with h2 | ⟨n, hn, hret, hval⟩
      · simp at h2
      · rw [hval]
        exact nodup_keys_extractTasks style n.children
    rw [getKey_buildRow_ne fmt _ _ (by decide : ("undefined" : String) ≠ "url")]
    show getKey ((audit style fmt tree).details.headings.foldl
      (rowStep fmt (urlGroups e.2)) []) "undefined" = _
    by_cases hany : (audit style fmt tree).details.headings.any
        (fun h => h.key == (none : Option String)) = true
    · rw [if_pos hany]
      rcases List.any_eq_true.1 hany with ⟨h, hh, hkey⟩
      have hkeyn : h.key = none := by simpa using hkey
      rw [getKey_foldl_rowStep_mem fmt (urlGroups e.2) "undefined" _ [] h
        (audit_headings_coerced_nodup style fmt tree) hh (by rw [hkeyn]; rfl)]
      have hcv : cellValue (urlGroups e.2) h = unknownSum e.2 := by
        simp only [cellValue, hkeyn]
        rw [show optKey none = "undefined" from rfl, getD_urlGroups e.2 _ hnd2,
          bucketSum_undefined]
      rw [hcv]
    · rw [if_neg hany]
      have hnm : "undefined" ∉
          (audit style fmt tree).details.headings.map (fun h => optKey h.key) := by
        intro hmem2
        rcases List.mem_map.1 hmem2 with ⟨h, hh, hk⟩
        cases hknd : h.key with
        | none => exact hany (List.any_eq_true.2 ⟨h, hh, by simp [hknd]⟩)
        | some v =>
          have hv : v = "undefined" := by
            rw [hknd] at hk
            simpa [optKey] using hk
          exact some_undefined_not_mem_keys style fmt tree
            (List.mem_map.2 ⟨h, hh, by rw [hknd, hv]⟩)
      rw [getKey_foldl_rowStep_not_mem fmt (urlGroups e.2) "undefined" _ [] hnm]
      rfl

/-! ### Claim C6 -/

theorem getKey_extractor_foldl_mem {style : Event → String} :
    ∀ (tree : GroupingTree) (acc : UrlTimingMap) (url : String) (node : UrlNode),
      (url, node) ∈ tree → (tree.map Prod.fst).Nodup →
      ¬(url = "" ∨ url = "about:blank") →
      getKey (tree.foldl
        (fun result e =>
          if e.1 = "" ∨ e.1 = "about:blank" then result
          else setKey result e.1 (extractTasks style e.2.children)) acc) url =
        some (extractTasks style node.children) := by
  intro tree
  induction tree with
  | nil => intro acc url node h; simp at h
  | cons p rest ih =>
    intro acc url node hmem hnd hret
    rw [List.map_cons] at hnd
    have hnd1 := (List.nodup_cons.1 hnd).1
    have hnd2 := (List.nodup_cons.1 hnd).2
    rcases List.mem_cons.1 hmem with hm | hm
    · have hup : p.1 = url := by rw [← hm]
      have hun : p.2 = node := by rw [← hm]
      rw [List.foldl_cons]
      have hcond : ¬(p.1 = "" ∨ p.1 = "about:blank") := by rw [hup]; exact hret
      rw [if_neg hcond]
      have hnm : url ∉ rest.map Prod.fst := by rw [← hup]; exact hnd1
      rw [getKey_extractor_foldl_not_mem rest _ url hnm, hup, getKey_setKey_self,
        hun]
    · rw [List.foldl_cons]
      by_cases hc : p.1 = "" ∨ p.1 = "about:blank"
      · rw [if_pos hc]
        exact ih _ url node hm hnd2 hret
      · rw [if_neg hc]
        exact ih _ url node hm hnd2 hret

theorem foldlM_opt_extractor {style : Event → String} :
    ∀ (tree : List (String × UrlNodeOpt)) (acc : UrlTimingMap),
      (∀ e ∈ tree, e.2.children ≠ none) →
      (tree.foldlM
        (fun result e =>
          if e.1 = "" ∨ e.1 = "about:blank" then pure result
          else
            match e.2.children with
            | none => Except.error "TypeError: children is undefined"
            | some cs => pure (setKey result e.1 (extractTasks style cs))) acc
        : Except String UrlTimingMap) =
      Except.ok ((tree.map (fun e => (e.1, UrlNode.mk (e.2.children.getD [])))).foldl
        (fun result e =>
          if e.1 = "" ∨ e.1 = "about:blank" then result
          else setKey result e.1 (extractTasks style e.2.children)) acc) := by
  intro tree
  induction tree with
  | nil => intro acc h; rfl
  | cons p rest ih =>
    intro acc h
    have hp := h p (List.mem_cons_self p rest)
    by_cases hb : p.1 = "" ∨ p.1 = "about:blank"
    · simp only [List.foldlM_cons, List.map_cons, List.foldl_cons]
      rw [if_pos hb, if_pos hb, pure_bind]
      exact ih acc (fun e he => h e (List.mem_cons_of_mem _ he))
    · rcases hcs : p.2.children with _ | cs
      · exact absurd hcs hp
      · simp only [List.foldlM_cons, List.map_cons, List.foldl_cons, hcs,
          Option.getD_some]
        rw [if_neg hb, if_neg hb, pure_bind]
        exact ih _ (fun e he => h e (List.mem_cons_of_mem _ he))

theorem opt_extractor_ok_of_children (style : Event → String)
    (tree : List (String × UrlNodeOpt))
    (hall : ∀ e ∈ tree, e.2.children ≠ none) :
    getExecutionTimingsByURLOpt style tree =
      Except.ok (getExecutionTimingsByURL style
        (tree.map (fun e => (e.1, UrlNode.mk (e.2.children.getD []))))) :=
  foldlM_opt_extractor tree [] hall

/-- C6 (counterexample to the claim as stated): a retained URL node whose
children field is actually missing makes the extractor throw a TypeError
instead of yielding an empty duration map. -/
theorem missing_children_typeerror :
    getExecutionTimingsByURLOpt style0 treeBad =
      Except.error "TypeError: children is undefined" := by
  rfl

/-- C6 (amended): when every URL node does have a children field, the
extractor raises no error, and a retained URL node whose children map is
present but empty is mapped to an empty duration map. -/
theorem empty_children_empty_map (style : Event → String)
    (tree : List (String × UrlNodeOpt))
    (hall : ∀ e ∈ tree, e.2.children ≠ none) :
    ∃ m : UrlTimingMap, getExecutionTimingsByURLOpt style tree = Except.ok m ∧
      ((tree.map Prod.fst).Nodup →
        ∀ url node, (url, node) ∈ tree → ¬(url = "" ∨ url = "about:blank") →
          node.children = some [] → getKey m url = some []) := by
  refine ⟨_, opt_extractor_ok_of_children style tree hall, ?_⟩
  intro hnd url node hmem hret hch
  have hmem2 : (url, UrlNode.mk []) ∈
      tree.map (fun e => (e.1, UrlNode.mk (e.2.children.getD []))) :=
    List.mem_map.2 ⟨(url, node), hmem, by simp [hch]⟩
  have hfst : (tree.map (fun e => (e.1, UrlNode.mk (e.2.children.getD [])))).map
      Prod.fst = tree.map Prod.fst := by
    rw [List.map_map]
    apply List.map_congr_left
    intro e he
    rfl
  have hndm : ((tree.map (fun e =>
      (e.1, UrlNode.mk (e.2.children.getD [])))).map Prod.fst).Nodup := by
    rw [hfst]
    exact hnd
  have hget := @getKey_extractor_foldl_mem style
    (tree.map (fun e => (e.1, UrlNode.mk (e.2.children.getD [])))) [] url
    (UrlNode.mk []) hmem2 hndm hret
  simpa [getExecutionTimingsByURL, extractTasks] using hget

/-- Witness for C6 (amended) at a one-URL tree with empty children. -/
theorem empty_children_empty_map_witness :
    ∃ m : UrlTimingMap, getExecutionTimingsByURLOpt style0 treeE = Except.ok m ∧
      ((treeE.map Prod.fst).Nodup →
        ∀ url node, (url, node) ∈ treeE → ¬(url = "" ∨ url = "about:blank") →
          node.children = some [] → getKey m url = some []) :=
  empty_children_empty_map style0 treeE
    (by
      intro e he
      simp only [treeE, List.mem_singleton] at he
      rw [he]
      simp)
